import Mathlib

set_option maxRecDepth 4000

/-!
Shallow embedding of the MCTS engine repository (sequential engine `mcts.py`,
game classes `c4.py`, `gomoku.py`, `reversi.py`, and the game-mechanics port
`mctsnc_game_mechanics.py`), together with proofs about the frozen claims.

Boards are functions from (row, column) to a cell value (0 = empty, 1 = the
maximizing player's disc/stone, -1 = the minimizing player's).  All loops of
the Python source are embedded as structural recursions or folds over
`List.range`; machine integers of the source (numpy int8) stay within tiny
ranges here, so plain `Nat`/`Int` model them exactly.
-/

/-- Game boards: cell value at (row, column); 0 = empty, plus/minus 1 = occupant. -/
def Board : Type := Nat → Nat → Int

/-- The all-zero board (numpy zeros). -/
def Board.emptyB : Board := fun _ _ => 0

/-- Single-cell assignment, the embedding of a numpy element store. -/
def Board.setCell (b : Board) (i j : Nat) (v : Int) : Board :=
  fun r c => if r = i ∧ c = j then v else b r c

/-- Combined bounds-and-value test on an m times n board, mirroring the guards
of the source loops (a test like `i - k < 0 or board[i-k, j] != last_token`,
negated). -/
def cellIs (b : Board) (m n : Nat) (r c t : Int) : Bool :=
  decide (0 ≤ r) && decide (r < (m : Int)) && decide (0 ≤ c) && decide (c < (n : Int))
    && decide (b r.toNat c.toNat = t)

/-- One half-direction counting loop of the outcome kernels: counts consecutive
cells equal to t at offsets k * (dr, dc) from (i, j) for k = 1, 2, ...,
stopping at the first failed bound-or-value test or after cap steps
(the source's `for k in range(1, cap + 1)` with `break`). -/
def halfCount (b : Board) (m n : Nat) (t dr dc : Int) : Int → Int → Nat → Nat
  | _, _, 0 => 0
  | i, j, cap + 1 =>
    if cellIs b m n (i + dr) (j + dc) t then
      1 + halfCount b m n t dr dc (i + dr) (j + dc) cap
    else 0

/-- Total of the two half-direction loops for one line direction, as computed
by every outcome kernel of the source (first the (dr, dc) loop, then the
(-dr, -dc) loop). -/
def lineTotal (b : Board) (m n : Nat) (t : Int) (i j dr dc : Int) (cap : Nat) : Nat :=
  halfCount b m n t dr dc i j cap + halfCount b m n t (-dr) (-dc) i j cap

/-- Number of empty cells, the embedding of `np.sum(board == 0)`. -/
def boardZeroCount (b : Board) (m n : Nat) : Nat :=
  ((List.range m).map fun i => ((List.range n).filter fun j => b i j == 0).length).sum

/-- Draw test of the ported outcome kernels: the flag loop that scans all cells
and clears `draw` on the first empty cell found; its net result is that the
board holds no empty cell. -/
def boardFull (b : Board) (m n : Nat) : Bool :=
  (List.range m).all fun i => (List.range n).all fun j => !(b i j == 0)

/-- Function compute_outcome_gomoku of mctsnc_game_mechanics.py (lines
261-323): checks the four line directions through the last action with
half-counts capped at 5 and wins on a total of exactly 4, then the draw scan;
2 encodes an ongoing game.  The extra_info argument of the source is unused
for Gomoku and dropped here. -/
def compute_outcome_gomoku (m n : Nat) (b : Board) (turn : Int) (lastAction : Nat) : Int :=
  let lastToken := -turn
  let i : Int := ((lastAction / n : Nat) : Int)
  let j : Int := ((lastAction % n : Nat) : Int)
  if lineTotal b m n lastToken i j (-1) 0 5 = 4 then lastToken
  else if lineTotal b m n lastToken i j 0 1 5 = 4 then lastToken
  else if lineTotal b m n lastToken i j (-1) 1 5 = 4 then lastToken
  else if lineTotal b m n lastToken i j (-1) (-1) 5 = 4 then lastToken
  else if boardFull b m n then 0
  else 2

/-- Static method Gomoku.compute_outcome_job_numba_jit of gomoku.py (lines
161-215): the same four direction tests, returning 0 when no exactly-five line
through the last move exists. -/
def Gomoku_compute_outcome_job_numba_jit (M N : Nat) (turn : Int) (lastI lastJ : Int)
    (b : Board) : Int :=
  let lastToken := -turn
  if lineTotal b M N lastToken lastI lastJ (-1) 0 5 = 4 then lastToken
  else if lineTotal b M N lastToken lastI lastJ 0 1 5 = 4 then lastToken
  else if lineTotal b M N lastToken lastI lastJ (-1) 1 5 = 4 then lastToken
  else if lineTotal b M N lastToken lastI lastJ (-1) (-1) 5 = 4 then lastToken
  else 0

/-- Method Gomoku.compute_outcome_job of gomoku.py (lines 90-159): wraps the
jit kernel, then resolves a draw when no cell is empty, and an ongoing game
(Python None) otherwise. -/
def Gomoku_compute_outcome_job (b : Board) (turn : Int) (lastActionIndex : Nat) : Option Int :=
  let i : Int := ((lastActionIndex / 15 : Nat) : Int)
  let j : Int := ((lastActionIndex % 15 : Nat) : Int)
  let r := Gomoku_compute_outcome_job_numba_jit 15 15 turn i j b
  if r ≠ 0 then some r
  else if boardZeroCount b 15 15 = 0 then some 0
  else none

/-- Static method Gomoku.get_max_actions of gomoku.py (lines 298-307). -/
def Gomoku_get_max_actions : Nat := 15 * 15

/-- The four line directions tested by the Gomoku and Reversi outcome kernels,
each given by the (dr, dc) of the kernel's first half-count loop (N-S, E-W,
NE-SW, NW-SE). -/
def lineDirs : List (Int × Int) := [(-1, 0), (0, 1), (-1, 1), (-1, -1)]

/-- Specification-side predicate: along direction (dr, dc), the stone at
(i, j) sits on a run of exactly five consecutive stones of value t; p stones
extend one way and q = 4 - p the other, and the two cells just beyond the run
are off the board or not of value t. -/
def exactRunFiveDir (b : Board) (t : Int) (i j dr dc : Int) : Bool :=
  (List.range 5).any fun p =>
    decide (p ≤ 4) &&
    ((List.range p).all fun k =>
      cellIs b 15 15 (i + ((k : Int) + 1) * dr) (j + ((k : Int) + 1) * dc) t) &&
    ((List.range (4 - p)).all fun k =>
      cellIs b 15 15 (i + ((k : Int) + 1) * (-dr)) (j + ((k : Int) + 1) * (-dc)) t) &&
    !(cellIs b 15 15 (i + ((p : Int) + 1) * dr) (j + ((p : Int) + 1) * dc) t) &&
    !(cellIs b 15 15 (i + (((4 - p : Nat) : Int) + 1) * (-dr)) (j + (((4 - p : Nat) : Int) + 1) * (-dc)) t)

/-- Specification-side predicate of the claim: the last-placed stone (i, j) is
a stone of value t and lies, in one of the four line directions through it, on
a line of exactly five consecutive stones of value t. -/
def gomokuFiveThrough (b : Board) (t : Int) (i j : Int) : Bool :=
  cellIs b 15 15 i j t && lineDirs.any fun d => exactRunFiveDir b t i j d.1 d.2

/-- Concrete Gomoku position: black stones on row 0, columns 0..4 (the fifth
black stone just placed at column 2), every other cell empty. -/
def gomokuWinBoard : Board := fun i j => if i = 0 ∧ j < 5 then 1 else 0

/-- The eight ray directions of the ported Reversi functions, in the source's
iteration order (`for horizontal in range(-1, 2): for vertical in range(-1, 2)`
skipping (0, 0)); the source adds `horizontal` to the row and `vertical` to
the column, so each pair below is (row delta, column delta). -/
def reversiDirs : List (Int × Int) :=
  [(-1, -1), (-1, 0), (-1, 1), (0, -1), (0, 1), (1, -1), (1, 0), (1, 1)]

/-- Ray walk of the ported Reversi legality tests: starting from a neighbour
cell already known to hold the opponent's disc, repeatedly advance by
(dr, dc); stop with failure on leaving the m x n board or on an empty cell,
with success on a cell of the player.  The fuel argument only bounds the
recursion; a ray from an on-board cell leaves the board within max m n + 1
steps, so the callers' fuel m + n is never exhausted. -/
def reversiRay (m n : Nat) (b : Board) (t dr dc : Int) : Int → Int → Nat → Bool
  | _, _, 0 => false
  | r, c, fuel + 1 =>
    let r' := r + dr
    let c' := c + dc
    if decide (r' < 0) || decide (r' ≥ (m : Int)) || decide (c' < 0) || decide (c' ≥ (n : Int))
        || (b r'.toNat c'.toNat == 0) then false
    else if b r'.toNat c'.toNat == t then true
    else reversiRay m n b t dr dc r' c' fuel

/-- Per-cell legality of a normal Reversi move for player t at cell (i, j):
the cell is empty and some of the eight rays starts with an opponent disc and
reaches a disc of t over opponent discs.  This is the body that
mctsnc_game_mechanics.py inlines identically in the normal branch of
is_action_legal_reversi (lines 380-412), in the pass-branch scan (lines
332-378), in legal_actions_playout_reversi and, per player, in
compute_outcome_reversi. -/
def reversiCellLegal (m n : Nat) (b : Board) (t : Int) (i j : Nat) : Bool :=
  if !(b i j == 0) then false
  else reversiDirs.any fun d =>
    let r := (i : Int) + d.1
    let c := (j : Int) + d.2
    if decide (0 ≤ r) && decide (r < (m : Int)) && decide (0 ≤ c) && decide (c < (n : Int))
        && (b r.toNat c.toNat == -t) then
      reversiRay m n b t d.1 d.2 r c (m + n)
    else false

/-- The pass-branch scan of is_action_legal_reversi (lines 332-374): does the
player to move have any normal (non-pass) move anywhere on the board? -/
def reversiHasNormalMove (m n : Nat) (b : Board) (t : Int) : Bool :=
  (List.range (m * n)).any fun a => reversiCellLegal m n b t (a / n) (a % n)

/-- Function is_action_legal_reversi of mctsnc_game_mechanics.py (lines
326-412): action m * n is the pass and is made legal exactly when the player
to move has no normal move (the opponent is not examined); any other action is
legal by the flip rule.  The legal_actions output array of the source becomes
the returned Bool. -/
def is_action_legal_reversi (m n : Nat) (b : Board) (t : Int) (a : Nat) : Bool :=
  if a = m * n then !reversiHasNormalMove m n b t
  else reversiCellLegal m n b t (a / n) (a % n)

/-- Number of cells holding value v, the embedding of the disc-counting loop
of compute_outcome_reversi. -/
def discCount (b : Board) (m n : Nat) (v : Int) : Nat :=
  ((List.range m).map fun i => ((List.range n).filter fun j => b i j == v).length).sum

/-- Function compute_outcome_reversi of mctsnc_game_mechanics.py (lines
557-643): counts both players' discs, scans (with early exit) whether either
player still has a normal move — the per-player test is the same inlined ray
logic as reversiCellLegal — and returns 2 (ongoing) when someone can move,
otherwise the disc-count verdict.  turn and last_action are unused by the
source body. -/
def compute_outcome_reversi (m n : Nat) (b : Board) (_turn : Int) (_lastAction : Nat) : Int :=
  let p1 := discCount b m n 1
  let pm1 := discCount b m n (-1)
  let h1 := reversiHasNormalMove m n b 1
  let hm1 := reversiHasNormalMove m n b (-1)
  if h1 || hm1 then 2
  else if p1 > pm1 then 1
  else if pm1 > p1 then -1
  else 0

/-- Static method Reversi.get_max_actions of reversi.py (lines 261-263): the
sequential Reversi reports M * N = 64 actions, with no slot for a pass. -/
def Reversi_get_max_actions : Nat := 8 * 8

/-- Static method Reversi.compute_outcome_job_numba_jit of reversi.py (lines
146-200): identical in form to the Gomoku kernel — four direction tests for a
line of exactly five through the last action — although the class plays
Reversi. -/
def Reversi_compute_outcome_job_numba_jit (M N : Nat) (turn : Int) (lastI lastJ : Int)
    (b : Board) : Int :=
  let lastToken := -turn
  if lineTotal b M N lastToken lastI lastJ (-1) 0 5 = 4 then lastToken
  else if lineTotal b M N lastToken lastI lastJ 0 1 5 = 4 then lastToken
  else if lineTotal b M N lastToken lastI lastJ (-1) 1 5 = 4 then lastToken
  else if lineTotal b M N lastToken lastI lastJ (-1) (-1) 5 = 4 then lastToken
  else 0

/-- Method Reversi.compute_outcome_job of reversi.py (lines 75-144): wraps the
jit kernel above, then resolves a draw when no cell is empty and an ongoing
game (Python None) otherwise — a verbatim copy of the Gomoku termination
logic, with no pass-based end-of-game test. -/
def Reversi_compute_outcome_job (b : Board) (turn : Int) (lastActionIndex : Nat) : Option Int :=
  let i : Int := ((lastActionIndex / 8 : Nat) : Int)
  let j : Int := ((lastActionIndex % 8 : Nat) : Int)
  let r := Reversi_compute_outcome_job_numba_jit 8 8 turn i j b
  if r ≠ 0 then some r
  else if boardZeroCount b 8 8 = 0 then some 0
  else none

/-- The eight directions of Reversi.get_pawns_to_flip in reversi.py (lines
278-281), in its iteration order (`for horizontal in (-1, 0, 1): for vertical
in (-1, 0, 1)`); that method adds `vertical` to the row and `horizontal` to
the column, so each pair below is again (row delta, column delta). -/
def reversiSeqDirs : List (Int × Int) :=
  [(-1, -1), (0, -1), (1, -1), (-1, 0), (1, 0), (-1, 1), (0, 1), (1, 1)]

/-- Directional collection loop of Reversi.get_pawns_to_flip (lines 286-296):
walking from a cell, gather consecutive opponent discs; reaching a disc of the
player yields the gathered run (some), while leaving the board or an empty
cell discards it (none).  Fuel as in reversiRay. -/
def reversiPawnsRay (b : Board) (t dr dc : Int) : Int → Int → Nat → Option (List (Nat × Nat))
  | _, _, 0 => none
  | r, c, fuel + 1 =>
    if decide (0 ≤ r) && decide (r < 8) && decide (0 ≤ c) && decide (c < 8) then
      if b r.toNat c.toNat == -t then
        (reversiPawnsRay b t dr dc (r + dr) (c + dc) fuel).map fun l => (r.toNat, c.toNat) :: l
      else if b r.toNat c.toNat == t then some []
      else none
    else none

/-- Method Reversi.get_pawns_to_flip of reversi.py (lines 266-298): an
occupied target cell yields no flips; otherwise the contributions of the
eight directions are concatenated in iteration order. -/
def Reversi_get_pawns_to_flip (b : Board) (t : Int) (a : Nat) : List (Nat × Nat) :=
  let i := a / 8
  let j := a % 8
  if !(b i j == 0) then []
  else (reversiSeqDirs.map fun d =>
    ((reversiPawnsRay b t d.1 d.2 ((i : Int) + d.1) ((j : Int) + d.2) 16).getD [])).flatten

/-- Method Reversi.take_action_job of reversi.py (lines 46-73) combined with
the copying constructor: when no disc would be flipped the action is illegal
and nothing happens (none); otherwise the new stone is placed, the gathered
discs are flipped and the turn toggles. -/
def Reversi_take_action_job (b : Board) (t : Int) (a : Nat) : Option (Board × Int) :=
  let flips := Reversi_get_pawns_to_flip b t a
  if flips = [] then none
  else
    let b1 := Board.setCell b (a / 8) (a % 8) t
    some (flips.foldl (fun bb rc => Board.setCell bb rc.1 rc.2 t) b1, -t)

/-- Method State.take_action of mcts.py (lines 122-145) specialised to a
Reversi state whose children dictionary has no entry for the action (the case
for every state created during a playout): it builds the child with the
copying constructor and take_action_job, and forwards none when the job
reports the action illegal. -/
def State_take_action_reversi (b : Board) (t : Int) (a : Nat) : Option (Board × Int) :=
  Reversi_take_action_job b t a

/-- Flat indices of the empty cells, the embedding of
`np.where(np.ravel(board) == 0)[0]` in Reversi.take_random_action_playout
(reversi.py lines 202-213): the support of the uniform random draw. -/
def Reversi_empty_cell_indexes (b : Board) : List Nat :=
  (List.range (8 * 8)).filter fun a => b (a / 8) (a % 8) == 0

/-- Method Reversi.take_random_action_playout of reversi.py (lines 202-213)
with the random draw made explicit: the drawn flat index (any member of
Reversi_empty_cell_indexes) is handed to State.take_action, whose result —
possibly none — is returned unchecked. -/
def Reversi_take_random_action_playout (b : Board) (t : Int) (draw : Nat) :
    Option (Board × Int) :=
  State_take_action_reversi b t draw

/-- The initial Reversi position of the Reversi constructor (reversi.py lines
11-18): white (-1) on (3,3) and (4,4), black (1) on (3,4) and (4,3), black to
move. -/
def reversiInitBoard : Board :=
  Board.setCell (Board.setCell (Board.setCell (Board.setCell Board.emptyB 3 3 (-1)) 4 4 (-1)) 3 4 1) 4 3 1

/-- Reversi board holding a single black disc at (0, 0): a position in which
neither player has any normal move. -/
def reversiOneDiscBoard : Board := Board.setCell Board.emptyB 0 0 1

/-- Reversi board covered entirely by black discs, the shape of a finished
wipe-out game: no empty cell, hence no normal move for either player. -/
def reversiAllBlackBoard : Board := fun _ _ => 1

/-- Function is_action_legal_c4 of mctsnc_game_mechanics.py (lines 106-109):
a drop into column `action` is legal when that column's fill (stored in
extra_info) is below m. -/
def is_action_legal_c4 (m : Nat) (extraInfo : Nat → Nat) (action : Nat) : Bool :=
  decide (extraInfo action < m)

/-- Function take_action_c4 of mctsnc_game_mechanics.py (lines 112-117):
increments the column fill, then writes the mover's sign at row
m - extra_info[action] (read after the increment). -/
def take_action_c4 (m : Nat) (b : Board) (extraInfo : Nat → Nat) (turn : Int) (action : Nat) :
    Board × (Nat → Nat) :=
  let extraInfo' := fun k => if k = action then extraInfo k + 1 else extraInfo k
  let row := m - extraInfo' action
  (Board.setCell b row action turn, extraInfo')

/-- Method C4.take_action_job of c4.py (lines 71-91) combined with the copying
constructor: a full column (fill = M = 6) is illegal and nothing happens;
otherwise the disc is written at row M - 1 - fill (fill read before the
increment), the fill is incremented and the turn toggles. -/
def C4_take_action_job (b : Board) (fills : Nat → Nat) (turn : Int) (action : Nat) :
    Option (Board × (Nat → Nat) × Int) :=
  if fills action = 6 then none
  else
    some (Board.setCell b (6 - 1 - fills action) action turn,
      (fun k => if k = action then fills k + 1 else fills k), -turn)

/-- Static method C4.get_max_actions of c4.py (lines 305-314): the number of
columns. -/
def C4_get_max_actions : Nat := 7

/-- Python str of a natural number below 100, as a list of character codes
(all action names of this repository use numbers at most 15). -/
def natToDecimal (x : Nat) : List Nat :=
  if x < 10 then [48 + x] else [48 + x / 10, 48 + x % 10]

/-- Python int of a decimal digit string, as folding of character codes. -/
def decimalToNat (s : List Nat) : Nat :=
  s.foldl (fun acc d => 10 * acc + (d - 48)) 0

/-- Python str.upper on a single character code. -/
def charUpper (c : Nat) : Nat := if 97 ≤ c ∧ c ≤ 122 then c - 32 else c

/-- Static method C4.action_index_to_name of c4.py (lines 268-280):
`str(action_index)`. -/
def C4_action_index_to_name (a : Nat) : List Nat := natToDecimal a

/-- Static method C4.action_name_to_index of c4.py (lines 254-266):
`int(action_name)`. -/
def C4_action_name_to_index (s : List Nat) : Nat := decimalToNat s

/-- Static method Gomoku.action_index_to_name of gomoku.py (lines 260-274):
column letter chr(ord('A') + index mod N) followed by str(row + 1). -/
def Gomoku_action_index_to_name (a : Nat) : List Nat :=
  (65 + a % 15) :: natToDecimal (a / 15 + 1)

/-- Static method Gomoku.action_name_to_index of gomoku.py (lines 243-258):
the first character (uppercased) gives the column, int of the rest minus one
gives the row; the index is row * N + column. -/
def Gomoku_action_name_to_index (s : List Nat) : Nat :=
  match s with
  | [] => 0
  | c :: rest => (decimalToNat rest - 1) * 15 + (charUpper c - 65)

/-- Static method Reversi.action_index_to_name of reversi.py (lines 243-248):
column letter chr(ord('A') + index mod N) followed by str(row + 1). -/
def Reversi_action_index_to_name (a : Nat) : List Nat :=
  (65 + a % 8) :: natToDecimal (a / 8 + 1)

/-- Static method Reversi.action_name_to_index of reversi.py (lines 224-241):
the first character (uppercased) gives the column and — unlike the Gomoku
version — only the second character is parsed as the row digit
(`int(action_name[1]) - 1`); the index is row * N + column. -/
def Reversi_action_name_to_index (s : List Nat) : Nat :=
  match s with
  | c :: d :: _ => ((d - 48) - 1) * 8 + (charUpper c - 65)
  | _ => 0

/-- Statistics record of a sequential-search tree node: the attributes that
State.__init__ of mcts.py (lines 48-64) creates, with the children dictionary
and the parent reference replaced by arena-style indices into a node list
(children: the indices of the child states; parent: the index of the parent
state, none for the root). -/
structure MNode where
  winFlag : Bool
  n : Nat
  nWins : Nat
  turn : Int
  outcomeComputed : Bool
  outcome : Option Int
  lastActionIndex : Option Nat
  parent : Option Nat
  children : List Nat
deriving DecidableEq, Repr

/-- Method State.compute_outcome of mcts.py (lines 164-184), with the result
of the subclass hook compute_outcome_job passed as the job argument: returns
the cached outcome when present, returns ongoing (none) for a state with no
last action, and otherwise caches the job's outcome and latches win_flag on
the node itself when that outcome equals minus the node's own turn. -/
def State_compute_outcome (s : MNode) (job : Option Int) : MNode × Option Int :=
  if s.outcomeComputed then (s, s.outcome)
  else if s.lastActionIndex = none then (s, none)
  else
    let s1 := { s with outcome := job, outcomeComputed := true }
    let s2 := if job = some (-s.turn) then { s1 with winFlag := true } else s1
    (s2, job)

/-- The root preparation at the top of MCTS.run in mcts.py (lines 497-501):
the root's parent is cleared and, when vanilla is set, the visit count n and
the children are reset — the win statistic n_wins is left untouched. -/
def MCTS_run_root_reset (root : MNode) (vanilla : Bool) : MNode :=
  let r := { root with parent := (none : Option Nat) }
  if vanilla then { r with n := 0, children := [] } else r

/-- Accumulator of MCTS._best_action in mcts.py (lines 456-480): the running
best action and its statistics (n and n_wins start at the integer -1). -/
structure BestAcc where
  bestAction : Option Nat
  bestWinFlag : Bool
  bestN : Int
  bestNWins : Int
deriving DecidableEq, Repr

/-- Loop body of MCTS._best_action: a child strictly better in the three-level
lexicographic comparison (win flag, then n, then n_wins) replaces the running
best. -/
def bestActionStep (acc : BestAcc) (e : Nat × MNode) : BestAcc :=
  let winFlag := e.2.winFlag
  let n : Int := (e.2.n : Int)
  let nWins : Int := (e.2.nWins : Int)
  if (winFlag && !acc.bestWinFlag)
      || ((winFlag == acc.bestWinFlag) && decide (n > acc.bestN))
      || ((winFlag == acc.bestWinFlag) && (n == acc.bestN) && decide (nWins > acc.bestNWins)) then
    ⟨some e.1, winFlag, n, nWins⟩
  else acc

/-- Method MCTS._best_action of mcts.py (lines 456-480): fold of the loop body
over the root's children (key and child state), starting from no action with
statistics (false, -1, -1). -/
def MCTS_best_action (children : List (Nat × MNode)) : BestAcc :=
  children.foldl bestActionStep ⟨none, false, -1, -1⟩

/-- Comparison key held by the accumulator: its (win_flag, n, n_wins)
triple. -/
def BestAcc.key (acc : BestAcc) : Bool × Int × Int :=
  (acc.bestWinFlag, (acc.bestN, acc.bestNWins))

/-- The strict three-level lexicographic order of the claim on (win_flag, n,
n_wins) triples: win flag true beats false; on equal flags a larger n wins; on
equal flags and n a larger n_wins wins. -/
def lexGt (x y : Bool × Int × Int) : Prop :=
  (x.1 = true ∧ y.1 = false) ∨ (x.1 = y.1 ∧ x.2.1 > y.2.1)
    ∨ (x.1 = y.1 ∧ x.2.1 = y.2.1 ∧ x.2.2 > y.2.2)

/-- Comparison key of a node: its (win_flag, n, n_wins) triple. -/
def nodeKey (s : MNode) : Bool × Int × Int := (s.winFlag, ((s.n : Int), (s.nWins : Int)))

/-- Sample root-children table (action key with child statistics) used to
witness the best-action reduction: the second child carries a win flag. -/
def bestActionSample : List (Nat × MNode) :=
  [(3, ⟨false, 7, 2, 1, false, none, none, none, []⟩),
   (5, ⟨true, 1, 1, -1, false, none, none, none, []⟩)]

/-- Single-node statistics update of MCTS._backup (mcts.py lines 621-624):
n is incremented, and n_wins when the node's turn equals minus the outcome. -/
def bumpNode (o : Int) (s : MNode) : MNode :=
  { s with n := s.n + 1, nWins := if s.turn = -o then s.nWins + 1 else s.nWins }

/-- Apply the statistics update to the node at one index of the arena list. -/
def bumpAt (ns : List MNode) (idx : Nat) (o : Int) : List MNode :=
  ns.mapIdx fun i s => if i = idx then bumpNode o s else s

/-- Children reset of the playout seed at the start of MCTS._backup (mcts.py
lines 618-620): the playout branch hanging off the seed is discarded. -/
def clearChildrenAt (ns : List MNode) (idx : Nat) : List MNode :=
  ns.mapIdx fun i s => if i = idx then { s with children := [] } else s

/-- The while loop of MCTS._backup (mcts.py lines 621-625): bump the current
node's statistics and move to its parent until the parent chain ends.  Fuel
bounds the recursion only: every node's parent index is smaller than its own
index (parents are created before children), so fuel equal to the arena size
is never exhausted. -/
def backupWalk (o : Int) : List MNode → Option Nat → Nat → List MNode
  | ns, none, _ => ns
  | ns, some _, 0 => ns
  | ns, some i, fuel + 1 =>
    match ns[i]? with
    | none => ns
    | some s => backupWalk o (bumpAt ns i o) s.parent fuel

/-- Method MCTS._backup of mcts.py (lines 615-625) given the playout's
terminal outcome o: discard the seed's playout branch, then walk the parent
chain from the seed, bumping statistics. -/
def MCTS_backup (ns : List MNode) (seed : Nat) (o : Int) : List MNode :=
  backupWalk o (clearChildrenAt ns seed) (some seed) ns.length

/-- The parent chain read off the arena from a starting index: the path along
which MCTS._backup walks.  Fuel as in backupWalk. -/
def ancestorChain (ns : List MNode) : Option Nat → Nat → List Nat
  | none, _ => []
  | some _, 0 => []
  | some i, fuel + 1 =>
    i :: (match ns[i]? with
          | none => []
          | some s => ancestorChain ns s.parent fuel)

/-- The path from the playout seed to the root, both inclusive. -/
def seedPath (ns : List MNode) (seed : Nat) : List Nat :=
  ancestorChain ns (some seed) ns.length

/-- Sample three-node arena (root, its child, a grandchild seed) used to
witness the backup theorem. -/
def backupSample : List MNode :=
  [⟨false, 3, 1, 1, false, none, none, none, [1]⟩,
   ⟨false, 2, 0, -1, false, none, some 5, some 0, [2]⟩,
   ⟨false, 1, 0, 1, false, none, some 7, some 1, []⟩]

/-- Well-formedness of the arena list: every stored parent index is smaller
than the index of its node (in the sequential engine every parent object is
created before its children). -/
def parentsDecreasing (ns : List MNode) : Bool :=
  (List.range ns.length).all fun i =>
    match ns[i]? with
    | none => true
    | some s =>
      match s.parent with
      | none => true
      | some p => decide (p < i)

/-- Bundled evaluation of the playout-trap scenario: from the opening, black
plays D3 (flat index 19); in the resulting position (white to move) the
engine's outcome test reports the game ongoing, flat index 0 (cell A1) is in
the support of the playout's random draw, that cell flips no disc, and the
playout step therefore returns none instead of a state. -/
def reversiPlayoutTrapCheck : Bool :=
  match Reversi_take_action_job reversiInitBoard 1 19 with
  | none => false
  | some (b, t) =>
    decide (t = -1) && (Reversi_compute_outcome_job b t 19).isNone
      && (Reversi_empty_cell_indexes b).contains 0
      && decide (Reversi_get_pawns_to_flip b t 0 = [])
      && (Reversi_take_random_action_playout b t 0).isNone

/-!
Theorems.  Each claim of the verification plan is settled below; supporting
lemmas come first.
-/

/-- The draw counter of the sequential wrappers is zero exactly when the draw
flag scan of the ported kernels reports the board full. -/
theorem boardZeroCount_eq_zero_iff (b : Board) (m n : Nat) :
    boardZeroCount b m n = 0 ↔ boardFull b m n = true := by
  unfold boardZeroCount boardFull
  rw [List.sum_eq_zero_iff, List.all_eq_true]
  constructor
  · intro h i hi
    rw [List.all_eq_true]
    intro j hj
    have h0 := h _ (List.mem_map.mpr ⟨i, hi, rfl⟩)
    rw [List.length_eq_zero, List.filter_eq_nil_iff] at h0
    have h1 := h0 j hj
    simpa using h1
  · intro h x hx
    obtain ⟨i, hi, rfl⟩ := List.mem_map.mp hx
    rw [List.length_eq_zero, List.filter_eq_nil_iff]
    intro j hj
    have h1 := h i hi
    rw [List.all_eq_true] at h1
    have h2 := h1 j hj
    simpa using h2

/-- Cells counted by a half-count loop do hold the sought value: the k-th
counted cell (k below the count) is the cell at offset k + 1. -/
theorem halfCount_mem (b : Board) (m n : Nat) (t dr dc : Int) :
    ∀ (cap : Nat) (i j : Int) (k : Nat), k < halfCount b m n t dr dc i j cap →
      cellIs b m n (i + ((k : Int) + 1) * dr) (j + ((k : Int) + 1) * dc) t = true := by
  intro cap
  induction cap with
  | zero => intro i j k hk; simp [halfCount] at hk
  | succ cap ih =>
    intro i j k hk
    simp only [halfCount] at hk
    by_cases hcell : cellIs b m n (i + dr) (j + dc) t
    · rw [if_pos hcell] at hk
      cases k with
      | zero => simpa using hcell
      | succ k' =>
        have h2 := ih (i + dr) (j + dc) k' (by omega)
        have e1 : (i + dr) + ((k' : Int) + 1) * dr = i + (((k' + 1 : Nat) : Int) + 1) * dr := by
          push_cast; ring
        have e2 : (j + dc) + ((k' : Int) + 1) * dc = j + (((k' + 1 : Nat) : Int) + 1) * dc := by
          push_cast; ring
        rw [e1, e2] at h2
        exact h2
    · rw [if_neg hcell] at hk; omega

/-- A half-count loop that stops before its cap stops for a reason: the cell
one past the counted run fails the bound-or-value test. -/
theorem halfCount_stop (b : Board) (m n : Nat) (t dr dc : Int) :
    ∀ (cap : Nat) (i j : Int), halfCount b m n t dr dc i j cap < cap →
      cellIs b m n (i + ((halfCount b m n t dr dc i j cap : Int) + 1) * dr)
        (j + ((halfCount b m n t dr dc i j cap : Int) + 1) * dc) t = false := by
  intro cap
  induction cap with
  | zero => intro i j hk; omega
  | succ cap ih =>
    intro i j hk
    simp only [halfCount] at hk ⊢
    by_cases hcell : cellIs b m n (i + dr) (j + dc) t
    · rw [if_pos hcell] at hk ⊢
      have h2 := ih (i + dr) (j + dc) (by omega)
      have e1 : (i + dr) + ((halfCount b m n t dr dc (i + dr) (j + dc) cap : Int) + 1) * dr
          = i + (((1 + halfCount b m n t dr dc (i + dr) (j + dc) cap : Nat) : Int) + 1) * dr := by
        push_cast; ring
      have e2 : (j + dc) + ((halfCount b m n t dr dc (i + dr) (j + dc) cap : Int) + 1) * dc
          = j + (((1 + halfCount b m n t dr dc (i + dr) (j + dc) cap : Nat) : Int) + 1) * dc := by
        push_cast; ring
      rw [e1, e2] at h2
      exact h2
    · rw [if_neg hcell]
      simpa using hcell

/-- Conversely, a run of exactly p sought cells starting at offset 1, blocked
at offset p + 1, forces a half-count loop of any larger cap to count exactly
p. -/
theorem halfCount_eq (b : Board) (m n : Nat) (t dr dc : Int) :
    ∀ (p cap : Nat) (i j : Int), p < cap →
      (∀ k, k < p → cellIs b m n (i + ((k : Int) + 1) * dr) (j + ((k : Int) + 1) * dc) t = true) →
      cellIs b m n (i + ((p : Int) + 1) * dr) (j + ((p : Int) + 1) * dc) t = false →
      halfCount b m n t dr dc i j cap = p := by
  intro p
  induction p with
  | zero =>
    intro cap i j hc _ hstop
    obtain ⟨cap', rfl⟩ : ∃ c, cap = c + 1 := ⟨cap - 1, by omega⟩
    simp only [halfCount]
    rw [if_neg]
    simpa using hstop
  | succ p ih =>
    intro cap i j hc hall hstop
    obtain ⟨cap', rfl⟩ : ∃ c, cap = c + 1 := ⟨cap - 1, by omega⟩
    simp only [halfCount]
    have h0 : cellIs b m n (i + dr) (j + dc) t = true := by
      have := hall 0 (by omega)
      simpa using this
    rw [if_pos h0]
    have hrec : halfCount b m n t dr dc (i + dr) (j + dc) cap' = p := by
      refine ih cap' (i + dr) (j + dc) (by omega) ?_ ?_
      · intro k hk
        have := hall (k + 1) (by omega)
        have e1 : i + (((k + 1 : Nat) : Int) + 1) * dr = (i + dr) + ((k : Int) + 1) * dr := by
          push_cast; ring
        have e2 : j + (((k + 1 : Nat) : Int) + 1) * dc = (j + dc) + ((k : Int) + 1) * dc := by
          push_cast; ring
        rw [e1, e2] at this
        exact this
      · have e1 : i + (((p + 1 : Nat) : Int) + 1) * dr = (i + dr) + ((p : Int) + 1) * dr := by
          push_cast; ring
        have e2 : j + (((p + 1 : Nat) : Int) + 1) * dc = (j + dc) + ((p : Int) + 1) * dc := by
          push_cast; ring
        rw [e1, e2] at hstop
        exact hstop
    omega

/-- The direction test of the outcome kernels — two half-counts capped at 5
summing to exactly 4 — holds exactly when the last move lies on a run of
exactly five consecutive stones in that direction. -/
theorem lineTotal_four_iff (b : Board) (t : Int) (i j dr dc : Int) :
    lineTotal b 15 15 t i j dr dc 5 = 4 ↔ exactRunFiveDir b t i j dr dc = true := by
  unfold lineTotal exactRunFiveDir
  rw [List.any_eq_true]
  constructor
  · intro h
    refine ⟨halfCount b 15 15 t dr dc i j 5, List.mem_range.mpr (by omega), ?_⟩
    simp only [Bool.and_eq_true, List.all_eq_true, List.mem_range, decide_eq_true_eq,
      Bool.not_eq_true']
    have hple : halfCount b 15 15 t dr dc i j 5 ≤ 4 := by omega
    have hq : halfCount b 15 15 t (-dr) (-dc) i j 5 = 4 - halfCount b 15 15 t dr dc i j 5 := by
      omega
    refine ⟨⟨⟨⟨hple, ?_⟩, ?_⟩, ?_⟩, ?_⟩
    · intro k hk
      exact halfCount_mem b 15 15 t dr dc 5 i j k hk
    · intro k hk
      exact halfCount_mem b 15 15 t (-dr) (-dc) 5 i j k (by omega)
    · exact halfCount_stop b 15 15 t dr dc 5 i j (by omega)
    · rw [← hq]
      exact halfCount_stop b 15 15 t (-dr) (-dc) 5 i j (by omega)
  · rintro ⟨p, hp, hcond⟩
    rw [List.mem_range] at hp
    simp only [Bool.and_eq_true, List.all_eq_true, List.mem_range, decide_eq_true_eq,
      Bool.not_eq_true'] at hcond
    obtain ⟨⟨⟨⟨hple, hpos⟩, hneg⟩, hstopp⟩, hstopq⟩ := hcond
    have hP : halfCount b 15 15 t dr dc i j 5 = p :=
      halfCount_eq b 15 15 t dr dc p 5 i j (by omega) hpos hstopp
    have hQ : halfCount b 15 15 t (-dr) (-dc) i j 5 = 4 - p :=
      halfCount_eq b 15 15 t (-dr) (-dc) (4 - p) 5 i j (by omega) hneg hstopq
    omega

/-- C5: for every Gomoku position produced by applying a move (the mover's
stone sits at the last action index), the terminal evaluation — both the
ported compute_outcome_gomoku and the sequential Gomoku.compute_outcome_job —
returns the mover's sign exactly when the last-placed stone lies on a line of
exactly five consecutive stones of that sign in one of the four directions
through it (a run of six or more through the move does not win), returns 0
exactly when there is no such line and the board is completely filled, and
reports the game as ongoing (2, respectively Python None) otherwise. -/
theorem C5_gomoku_exactly_five (b : Board) (turn : Int) (a : Nat)
    (hturn : turn = 1 ∨ turn = -1) (ha : a < 15 * 15)
    (hstone : b (a / 15) (a % 15) = -turn) :
    (compute_outcome_gomoku 15 15 b turn a = -turn ↔
      gomokuFiveThrough b (-turn) ((a / 15 : Nat) : Int) ((a % 15 : Nat) : Int) = true) ∧
    (compute_outcome_gomoku 15 15 b turn a = 0 ↔
      gomokuFiveThrough b (-turn) ((a / 15 : Nat) : Int) ((a % 15 : Nat) : Int) = false ∧
        boardFull b 15 15 = true) ∧
    (compute_outcome_gomoku 15 15 b turn a = 2 ↔
      gomokuFiveThrough b (-turn) ((a / 15 : Nat) : Int) ((a % 15 : Nat) : Int) = false ∧
        boardFull b 15 15 = false) ∧
    (Gomoku_compute_outcome_job b turn a = some (-turn) ↔
      gomokuFiveThrough b (-turn) ((a / 15 : Nat) : Int) ((a % 15 : Nat) : Int) = true) ∧
    (Gomoku_compute_outcome_job b turn a = some 0 ↔
      gomokuFiveThrough b (-turn) ((a / 15 : Nat) : Int) ((a % 15 : Nat) : Int) = false ∧
        boardFull b 15 15 = true) ∧
    (Gomoku_compute_outcome_job b turn a = none ↔
      gomokuFiveThrough b (-turn) ((a / 15 : Nat) : Int) ((a % 15 : Nat) : Int) = false ∧
        boardFull b 15 15 = false) := by
  have hcenter : cellIs b 15 15 ((a / 15 : Nat) : Int) ((a % 15 : Nat) : Int) (-turn) = true := by
    unfold cellIs
    simp only [Bool.and_eq_true, decide_eq_true_eq]
    refine ⟨⟨⟨⟨by omega, by omega⟩, by omega⟩, by omega⟩, ?_⟩
    rw [Int.toNat_natCast, Int.toNat_natCast]
    exact hstone
  have hT : gomokuFiveThrough b (-turn) ((a / 15 : Nat) : Int) ((a % 15 : Nat) : Int) = true ↔
      (lineTotal b 15 15 (-turn) ((a / 15 : Nat) : Int) ((a % 15 : Nat) : Int) (-1) 0 5 = 4 ∨
       lineTotal b 15 15 (-turn) ((a / 15 : Nat) : Int) ((a % 15 : Nat) : Int) 0 1 5 = 4 ∨
       lineTotal b 15 15 (-turn) ((a / 15 : Nat) : Int) ((a % 15 : Nat) : Int) (-1) 1 5 = 4 ∨
       lineTotal b 15 15 (-turn) ((a / 15 : Nat) : Int) ((a % 15 : Nat) : Int) (-1) (-1) 5 = 4) := by
    unfold gomokuFiveThrough lineDirs
    rw [hcenter, Bool.true_and]
    simp only [List.any_cons, List.any_nil, Bool.or_eq_true, Bool.false_eq_true, or_false]
    rw [← lineTotal_four_iff, ← lineTotal_four_iff, ← lineTotal_four_iff, ← lineTotal_four_iff]
  have hne0 : (-turn) ≠ (0 : Int) := by rcases hturn with h | h <;> subst h <;> decide
  have hne2 : (-turn) ≠ (2 : Int) := by rcases hturn with h | h <;> subst h <;> decide
  have hne0s : (0 : Int) ≠ (-turn) := Ne.symm hne0
  have hne2s : (2 : Int) ≠ (-turn) := Ne.symm hne2
  have hcount : (boardZeroCount b 15 15 = 0) ↔ boardFull b 15 15 = true :=
    boardZeroCount_eq_zero_iff b 15 15
  simp only [compute_outcome_gomoku, Gomoku_compute_outcome_job,
    Gomoku_compute_outcome_job_numba_jit]
  set gi : Int := ((a / 15 : Nat) : Int) with hgi
  set gj : Int := ((a % 15 : Nat) : Int) with hgj
  by_cases h1 : lineTotal b 15 15 (-turn) gi gj (-1) 0 5 = 4 <;>
  by_cases h2 : lineTotal b 15 15 (-turn) gi gj 0 1 5 = 4 <;>
  by_cases h3 : lineTotal b 15 15 (-turn) gi gj (-1) 1 5 = 4 <;>
  by_cases h4 : lineTotal b 15 15 (-turn) gi gj (-1) (-1) 5 = 4 <;>
  by_cases hfl : boardFull b 15 15 = true <;>
    simp [hT, h1, h2, h3, h4, hfl, hne0, hne2, hne0s, hne2s, hcount]
  all_goals rw [Bool.eq_false_iff]
  all_goals simp [hT, h1, h2, h3, h4]

/-- Witness for C5: on the board with black stones at A1..E1 (fifth stone the
last move, at flat index 2), the hypotheses hold and the evaluation reports a
black win. -/
theorem C5_gomoku_exactly_five_witness :
    ((-1 : Int) = 1 ∨ (-1 : Int) = -1) ∧ 2 < 15 * 15 ∧
    gomokuWinBoard (2 / 15) (2 % 15) = -(-1 : Int) ∧
    compute_outcome_gomoku 15 15 gomokuWinBoard (-1) 2 = 1 := by
  refine ⟨Or.inr rfl, by decide, by decide, ?_⟩
  have h := C5_gomoku_exactly_five gomokuWinBoard (-1) 2 (Or.inr rfl) (by decide) (by decide)
  exact (h.1.mpr (by decide)).trans (by decide)

/-- C1 (failing input): on the board with a single black disc at A1 (black
just moved there, white to move), neither player has a legal non-pass move, so
by the claim the game has ended with outcome +1 — the ported
compute_outcome_reversi indeed returns 1 — yet the sequential
Reversi.compute_outcome_job reports the game as ongoing (Python None), because
it is a copy of the Gomoku five-in-a-row termination test. -/
theorem C1_reversi_terminal_divergence :
    reversiHasNormalMove 8 8 reversiOneDiscBoard 1 = false ∧
    reversiHasNormalMove 8 8 reversiOneDiscBoard (-1) = false ∧
    Reversi_compute_outcome_job reversiOneDiscBoard (-1) 0 = none ∧
    compute_outcome_reversi 8 8 reversiOneDiscBoard (-1) 0 = 1 ∧
    discCount reversiOneDiscBoard 8 8 1 = 1 ∧
    discCount reversiOneDiscBoard 8 8 (-1) = 0 := by
  decide

/-- C2 (counterexample): on the board fully covered by black discs neither
player has a normal move, so the claim — pass legal only when the opponent
still has a move — demands that the pass be illegal; the code nevertheless
reports the pass action 64 legal, because it never examines the opponent. -/
theorem C2_pass_opponent_counterexample :
    is_action_legal_reversi 8 8 reversiAllBlackBoard 1 (8 * 8) = true ∧
    reversiHasNormalMove 8 8 reversiAllBlackBoard 1 = false ∧
    reversiHasNormalMove 8 8 reversiAllBlackBoard (-1) = false := by
  decide

/-- C2 (amended): in the ported Reversi the action space has the extra pass
index M * N = 64 (while the sequential Reversi.get_max_actions reports only
M * N = 64 board actions, so no pass exists there); the pass is legal exactly
when the side to move has no legal non-pass move — with no condition on the
opponent — and every other action index is decided by the flip rule, not the
pass rule. -/
theorem C2_amended_pass_legality (b : Board) (t : Int) :
    Reversi_get_max_actions = 8 * 8 ∧
    (is_action_legal_reversi 8 8 b t (8 * 8) = true ↔
      ∀ a, a < 8 * 8 → reversiCellLegal 8 8 b t (a / 8) (a % 8) = false) ∧
    (∀ a, a < 8 * 8 → is_action_legal_reversi 8 8 b t a = reversiCellLegal 8 8 b t (a / 8) (a % 8)) := by
  refine ⟨rfl, ?_, ?_⟩
  · unfold is_action_legal_reversi reversiHasNormalMove
    rw [if_pos rfl, Bool.not_eq_true', List.any_eq_false]
    constructor
    · intro h a ha
      have h2 := h a (List.mem_range.mpr ha)
      simpa using h2
    · intro h a ha
      simp [h a (List.mem_range.mp ha)]
  · intro a ha
    unfold is_action_legal_reversi
    rw [if_neg (by omega)]

/-- Witness for C2's amended theorem: applied to the all-black board with
white to move, whose 64 cell tests all fail. -/
theorem C2_amended_pass_legality_witness :
    is_action_legal_reversi 8 8 reversiAllBlackBoard (-1) (8 * 8) = true :=
  (C2_amended_pass_legality reversiAllBlackBoard (-1)).2.1.mpr (by decide)

/-- C3 (counterexample): evaluating State.compute_outcome on a childless
terminal node — here a Gomoku node holding the board with five black stones in
a row after black's move at flat index 2, so the job returns +1 = minus the
node's turn — latches win_flag on that very node while it has no children, so
no child with terminal outcome equal to minus the node's turn can exist. -/
theorem C3_winflag_childless_counterexample :
    (State_compute_outcome ⟨false, 0, 0, -1, false, none, some 2, some 0, []⟩
        (Gomoku_compute_outcome_job gomokuWinBoard (-1) 2)).1.winFlag = true ∧
    (State_compute_outcome ⟨false, 0, 0, -1, false, none, some 2, some 0, []⟩
        (Gomoku_compute_outcome_job gomokuWinBoard (-1) 2)).1.children = [] := by
  decide

/-- C3 (amended): win_flag marks the node itself, not a parent of a winning
child: for a node evaluated for the first time (outcome not yet cached, a last
action present, flag still unset), compute_outcome sets win_flag exactly when
the node's own terminal outcome equals minus the node's own turn; children are
not touched, and the job's outcome is cached. -/
theorem C3_amended_winflag_semantics (s : MNode) (job : Option Int)
    (hc : s.outcomeComputed = false) (hl : s.lastActionIndex ≠ none) (hw : s.winFlag = false) :
    (((State_compute_outcome s job).1.winFlag = true) ↔ job = some (-s.turn)) ∧
    (State_compute_outcome s job).1.children = s.children ∧
    (State_compute_outcome s job).1.outcome = job := by
  unfold State_compute_outcome
  rw [if_neg (by simp [hc]), if_neg hl]
  by_cases hj : job = some (-s.turn)
  · simp [hj]
  · simp [hj, hw]

/-- Witness for C3's amended theorem at a concrete node and job outcome. -/
theorem C3_amended_winflag_semantics_witness :
    (State_compute_outcome ⟨false, 0, 0, -1, false, none, some 7, some 0, []⟩
      (some 1)).1.winFlag = true :=
  (C3_amended_winflag_semantics ⟨false, 0, 0, -1, false, none, some 7, some 0, []⟩
    (some 1) rfl (by decide) rfl).1.mpr (by decide)

/-- C4 (failing input): MCTS.run with vanilla = true on a root carrying the
statistics n = 5, n_wins = 3 of a previous search resets n to 0 and clears the
children but leaves n_wins at 3, so immediately after the reset the root
violates n_wins less-or-equal n. -/
theorem C4_vanilla_reset_keeps_nWins :
    (MCTS_run_root_reset ⟨false, 5, 3, 1, false, none, none, none, [0, 1]⟩ true).n = 0 ∧
    (MCTS_run_root_reset ⟨false, 5, 3, 1, false, none, none, none, [0, 1]⟩ true).nWins = 3 ∧
    ¬((MCTS_run_root_reset ⟨false, 5, 3, 1, false, none, none, none, [0, 1]⟩ true).nWins ≤
        (MCTS_run_root_reset ⟨false, 5, 3, 1, false, none, none, none, [0, 1]⟩ true).n) := by
  decide

/-- C6 (counterexample): dropping the first disc of the game into column 0
writes it at row 5 (the bottom of the 6-row board): the cell named by the
claim's formula M - 1 - column_fill[j] read with the post-increment fill value
(row 6 - 1 - 1 = 4) stays empty, refuting the claim's location. -/
theorem C6_row_formula_counterexample :
    (take_action_c4 6 Board.emptyB (fun _ => 0) 1 0).2 0 = 1 ∧
    (take_action_c4 6 Board.emptyB (fun _ => 0) 1 0).1
      (6 - 1 - (take_action_c4 6 Board.emptyB (fun _ => 0) 1 0).2 0) 0 = 0 ∧
    (take_action_c4 6 Board.emptyB (fun _ => 0) 1 0).1 (6 - 1 - 0) 0 = 1 := by
  decide

/-- C6 (amended): a Connect-4 drop into column j is legal exactly when the
fill of column j is below M = 6 (in both the ported test and the sequential
job, for any state with a well-formed fill); applying a legal drop increments
that fill, writes the mover's sign at row M - 1 - fill with the fill read
before the increment (equivalently M - fill with the post-increment value),
leaves every other cell and fill unchanged, and the ported take_action_c4 and
the sequential C4.take_action_job produce the same board and fills. -/
theorem C6_amended_c4_drop (b : Board) (fills : Nat → Nat) (t : Int) (j : Nat)
    (hfill : fills j ≤ 6) :
    (is_action_legal_c4 6 fills j = true ↔ fills j < 6) ∧
    ((C4_take_action_job b fills t j).isSome = true ↔ fills j < 6) ∧
    (fills j < 6 →
      (take_action_c4 6 b fills t j).2 j = fills j + 1 ∧
      (∀ k, k ≠ j → (take_action_c4 6 b fills t j).2 k = fills k) ∧
      (take_action_c4 6 b fills t j).1 (6 - 1 - fills j) j = t ∧
      (∀ r c, ¬(r = 6 - 1 - fills j ∧ c = j) → (take_action_c4 6 b fills t j).1 r c = b r c) ∧
      C4_take_action_job b fills t j =
        some ((take_action_c4 6 b fills t j).1, (take_action_c4 6 b fills t j).2, -t)) := by
  have hrow : (6 : Nat) - (fills j + 1) = 6 - 1 - fills j := by omega
  refine ⟨by simp [is_action_legal_c4], ?_, ?_⟩
  · unfold C4_take_action_job
    by_cases h : fills j = 6
    · simp [h]
    · simp [h]
      omega
  · intro h
    unfold take_action_c4 C4_take_action_job
    rw [if_neg (by omega)]
    refine ⟨by simp, fun k hk => by simp [hk], ?_, ?_, ?_⟩
    · simp only [if_pos rfl, hrow, Board.setCell]
      simp
    · intro r c hrc
      simp only [Board.setCell, eq_self_iff_true, if_true, hrow]
      rw [if_neg hrc]
    · simp only [eq_self_iff_true, if_true, hrow]

/-- Witness for C6's amended theorem: the first drop of the game into column
0 lands at the bottom row 5 = 6 - 1 - 0. -/
theorem C6_amended_c4_drop_witness :
    (fun _ : Nat => 0) 0 ≤ 6 ∧ (0 : Nat) < 6 ∧
    (take_action_c4 6 Board.emptyB (fun _ => 0) 1 0).1 (6 - 1 - 0) 0 = 1 :=
  ⟨by decide, by decide,
    ((C6_amended_c4_drop Board.emptyB (fun _ => 0) 1 0 (by decide)).2.2 (by decide)).2.2.1⟩

/-- C9: for each of the three games, mapping a valid action index to its name
and back is the identity: Connect-4 stringifies the column index, Gomoku and
Reversi use a column letter and a one-based row number (Reversi parsing only
the single row digit its 8 x 8 board needs). -/
theorem C9_action_name_round_trip :
    (∀ a : Fin C4_get_max_actions, C4_action_name_to_index (C4_action_index_to_name a) = a) ∧
    (∀ a : Fin Gomoku_get_max_actions,
      Gomoku_action_name_to_index (Gomoku_action_index_to_name a) = a) ∧
    (∀ a : Fin Reversi_get_max_actions,
      Reversi_action_name_to_index (Reversi_action_index_to_name a) = a) := by
  decide

/-- C10: from the standard opening, black's legal move D3 (flat index 19)
leads to a reachable position that the engine's outcome test reports as
ongoing; flat index 0 (cell A1) is an empty cell, hence in the support of
take_random_action_playout's uniform draw, yet it flips no white disc, so
State.take_action — and with it the playout step — returns none instead of a
state: the sequential Reversi playout is not total over reachable states. -/
theorem C10_reversi_playout_not_total :
    (Reversi_take_action_job reversiInitBoard 1 19).isSome = true ∧
    reversiPlayoutTrapCheck = true := by
  decide

theorem lexGt_trans {x y z : Bool × Int × Int} (h1 : lexGt x y) (h2 : lexGt y z) : lexGt x z := by
  obtain ⟨x1, x2, x3⟩ := x
  obtain ⟨y1, y2, y3⟩ := y
  obtain ⟨z1, z2, z3⟩ := z
  simp only [lexGt] at h1 h2 ⊢
  cases x1 <;> cases y1 <;> cases z1 <;> simp_all <;> omega

/-- Irreflexivity of the three-level lexicographic order. -/
theorem lexGt_irrefl (x : Bool × Int × Int) : ¬ lexGt x x := by
  obtain ⟨x1, x2, x3⟩ := x
  simp [lexGt]

/-- Totality of the three-level lexicographic order. -/
theorem lexGt_total (x y : Bool × Int × Int) : lexGt x y ∨ lexGt y x ∨ x = y := by
  obtain ⟨x1, x2, x3⟩ := x
  obtain ⟨y1, y2, y3⟩ := y
  simp only [lexGt, Prod.mk.injEq]
  cases x1 <;> cases y1 <;> simp_all <;> omega

/-- Asymmetry of the three-level lexicographic order. -/
theorem lexGt_asymm {x y : Bool × Int × Int} (h : lexGt x y) : ¬ lexGt y x :=
  fun h2 => lexGt_irrefl x (lexGt_trans h h2)

/-- The complement of the strict order is transitive. -/
theorem lexGt_notGt_trans {x y z : Bool × Int × Int}
    (h1 : ¬ lexGt x y) (h2 : ¬ lexGt y z) : ¬ lexGt x z := by
  intro hxz
  rcases lexGt_total y x with h | h | h
  · exact h2 (lexGt_trans h hxz)
  · exact h1 h
  · subst h; exact h2 hxz

/-- The boolean update condition of the fold body decides exactly the strict
lexicographic comparison against the running best. -/
theorem bestActionStep_cond_iff (acc : BestAcc) (e : Nat × MNode) :
    (((e.2.winFlag && !acc.bestWinFlag)
      || ((e.2.winFlag == acc.bestWinFlag) && decide ((e.2.n : Int) > acc.bestN))
      || ((e.2.winFlag == acc.bestWinFlag) && ((e.2.n : Int) == acc.bestN)
            && decide ((e.2.nWins : Int) > acc.bestNWins))) = true)
      ↔ lexGt (nodeKey e.2) acc.key := by
  simp only [lexGt, nodeKey, BestAcc.key, Bool.or_eq_true, Bool.and_eq_true,
    Bool.not_eq_true', beq_iff_eq, decide_eq_true_eq]
  tauto

/-- A strictly better child replaces the running best. -/
theorem bestActionStep_of_gt (acc : BestAcc) (k : Nat) (s : MNode)
    (h : lexGt (nodeKey s) acc.key) :
    bestActionStep acc (k, s) = ⟨some k, s.winFlag, (s.n : Int), (s.nWins : Int)⟩ := by
  simp only [bestActionStep]
  rw [if_pos ((bestActionStep_cond_iff acc (k, s)).mpr h)]

/-- A child not strictly better leaves the running best unchanged. -/
theorem bestActionStep_of_not_gt (acc : BestAcc) (k : Nat) (s : MNode)
    (h : ¬ lexGt (nodeKey s) acc.key) :
    bestActionStep acc (k, s) = acc := by
  simp only [bestActionStep]
  rw [if_neg (fun hc => h ((bestActionStep_cond_iff acc (k, s)).mp hc))]

/-- The fold either returns its starting accumulator or the key and
statistics of some member of the list. -/
theorem bestAction_fold_mem : ∀ (l : List (Nat × MNode)) (acc : BestAcc),
    l.foldl bestActionStep acc = acc ∨
      ∃ k s, (k, s) ∈ l ∧ l.foldl bestActionStep acc
        = ⟨some k, s.winFlag, (s.n : Int), (s.nWins : Int)⟩ := by
  intro l
  induction l with
  | nil => intro acc; left; rfl
  | cons x xs ih =>
    intro acc
    obtain ⟨k0, s0⟩ := x
    rw [List.foldl_cons]
    by_cases hgt : lexGt (nodeKey s0) acc.key
    · rw [bestActionStep_of_gt acc k0 s0 hgt]
      rcases ih ⟨some k0, s0.winFlag, (s0.n : Int), (s0.nWins : Int)⟩ with h | ⟨k, s, hm, hres⟩
      · right; exact ⟨k0, s0, List.mem_cons_self _ _, h⟩
      · right; exact ⟨k, s, List.mem_cons_of_mem _ hm, hres⟩
    · rw [bestActionStep_of_not_gt acc k0 s0 hgt]
      rcases ih acc with h | ⟨k, s, hm, hres⟩
      · left; exact h
      · right; exact ⟨k, s, List.mem_cons_of_mem _ hm, hres⟩

/-- Along the fold the accumulator key never decreases. -/
theorem bestAction_fold_mono : ∀ (l : List (Nat × MNode)) (acc : BestAcc),
    ¬ lexGt acc.key (l.foldl bestActionStep acc).key := by
  intro l
  induction l with
  | nil => intro acc; exact lexGt_irrefl _
  | cons x xs ih =>
    intro acc
    obtain ⟨k0, s0⟩ := x
    rw [List.foldl_cons]
    by_cases hgt : lexGt (nodeKey s0) acc.key
    · rw [bestActionStep_of_gt acc k0 s0 hgt]
      have h2 : ¬ lexGt (nodeKey s0)
          (List.foldl bestActionStep ⟨some k0, s0.winFlag, (s0.n : Int), (s0.nWins : Int)⟩ xs).key :=
        ih ⟨some k0, s0.winFlag, (s0.n : Int), (s0.nWins : Int)⟩
      exact lexGt_notGt_trans (lexGt_asymm hgt) h2
    · rw [bestActionStep_of_not_gt acc k0 s0 hgt]
      exact ih acc

/-- No member of the folded list is strictly greater than the final
accumulator. -/
theorem bestAction_fold_max : ∀ (l : List (Nat × MNode)) (acc : BestAcc),
    ∀ e ∈ l, ¬ lexGt (nodeKey e.2) (l.foldl bestActionStep acc).key := by
  intro l
  induction l with
  | nil => intro acc e he; cases he
  | cons x xs ih =>
    intro acc e he
    obtain ⟨k0, s0⟩ := x
    rw [List.foldl_cons]
    rcases List.mem_cons.mp he with he' | hm
    · subst he'
      by_cases hgt : lexGt (nodeKey s0) acc.key
      · rw [bestActionStep_of_gt acc k0 s0 hgt]
        have h2 : ¬ lexGt (nodeKey s0)
            (List.foldl bestActionStep ⟨some k0, s0.winFlag, (s0.n : Int), (s0.nWins : Int)⟩ xs).key :=
          bestAction_fold_mono xs ⟨some k0, s0.winFlag, (s0.n : Int), (s0.nWins : Int)⟩
        exact lexGt_notGt_trans (lexGt_irrefl _) h2
      · rw [bestActionStep_of_not_gt acc k0 s0 hgt]
        exact lexGt_notGt_trans hgt (bestAction_fold_mono xs acc)
    · exact ih _ e hm

/-- C7: for every non-empty set of root children with their statistics, the
action returned by MCTS._best_action is the key of a member child whose
(win_flag, n, n_wins) triple the fold's accumulator holds, and no child is
strictly greater in the three-level lexicographic order (win_flag true beats
false, then strictly larger n, then strictly larger n_wins). -/
theorem C7_best_action_lexicographic_max (children : List (Nat × MNode)) (hne : children ≠ []) :
    ∃ k s, (MCTS_best_action children).bestAction = some k ∧ (k, s) ∈ children ∧
      (MCTS_best_action children).key = nodeKey s ∧
      ∀ e ∈ children, ¬ lexGt (nodeKey e.2) (nodeKey s) := by
  obtain ⟨x, xs, rfl⟩ := List.exists_cons_of_ne_nil hne
  obtain ⟨k0, s0⟩ := x
  have hgt0 : lexGt (nodeKey s0) (BestAcc.key ⟨none, false, -1, -1⟩) := by
    show lexGt (s0.winFlag, ((s0.n : Int), (s0.nWins : Int))) (false, ((-1 : Int), (-1 : Int)))
    unfold lexGt
    dsimp only
    cases hwf : s0.winFlag
    · right; left
      refine ⟨rfl, ?_⟩
      have h0 : (0 : Int) ≤ (s0.n : Int) := Int.natCast_nonneg _
      omega
    · left; exact ⟨rfl, rfl⟩
  have hfold : MCTS_best_action ((k0, s0) :: xs)
      = List.foldl bestActionStep ⟨some k0, s0.winFlag, (s0.n : Int), (s0.nWins : Int)⟩ xs := by
    unfold MCTS_best_action
    rw [List.foldl_cons, bestActionStep_of_gt _ k0 s0 hgt0]
  rcases bestAction_fold_mem xs ⟨some k0, s0.winFlag, (s0.n : Int), (s0.nWins : Int)⟩
    with hres | ⟨k, s, hm, hres⟩
  · refine ⟨k0, s0, ?_, List.mem_cons_self _ _, ?_, ?_⟩
    · rw [hfold, hres]
    · rw [hfold, hres]; rfl
    · intro e he
      have h1 := bestAction_fold_max ((k0, s0) :: xs) ⟨none, false, -1, -1⟩ e he
      have h2 : (List.foldl bestActionStep (⟨none, false, -1, -1⟩ : BestAcc)
          ((k0, s0) :: xs)).key = nodeKey s0 := by
        rw [List.foldl_cons, bestActionStep_of_gt _ k0 s0 hgt0, hres]
        rfl
      rwa [h2] at h1
  · refine ⟨k, s, ?_, List.mem_cons_of_mem _ hm, ?_, ?_⟩
    · rw [hfold, hres]
    · rw [hfold, hres]; rfl
    · intro e he
      have h1 := bestAction_fold_max ((k0, s0) :: xs) ⟨none, false, -1, -1⟩ e he
      have h2 : (List.foldl bestActionStep (⟨none, false, -1, -1⟩ : BestAcc)
          ((k0, s0) :: xs)).key = nodeKey s := by
        rw [List.foldl_cons, bestActionStep_of_gt _ k0 s0 hgt0, hres]
        rfl
      rwa [h2] at h1

/-- Witness for C7: on a concrete two-child table the reduction picks action 5
(the win-flagged child). -/
theorem C7_best_action_lexicographic_max_witness :
    bestActionSample ≠ [] ∧
    (∃ k s, (MCTS_best_action bestActionSample).bestAction = some k ∧
      (k, s) ∈ bestActionSample ∧
      (MCTS_best_action bestActionSample).key = nodeKey s ∧
      ∀ e ∈ bestActionSample, ¬ lexGt (nodeKey e.2) (nodeKey s)) :=
  ⟨by simp [bestActionSample],
    C7_best_action_lexicographic_max bestActionSample (by simp [bestActionSample])⟩

theorem mapIdx_getElem? (f : Nat → MNode → MNode) (l : List MNode) (j : Nat) :
    (l.mapIdx f)[j]? = (l[j]?).map (f j) := by
  by_cases h : j < l.length
  · rw [List.getElem?_eq_getElem (by rw [List.length_mapIdx]; exact h),
      List.getElem?_eq_getElem h]
    have := List.get_mapIdx l f j h
    simp only [List.get_eq_getElem] at this
    rw [this]
    rfl
  · rw [List.getElem?_eq_none (by rw [List.length_mapIdx]; omega),
      List.getElem?_eq_none (by omega)]
    rfl

/-- Lookup through a statistics bump at one index. -/
theorem bumpAt_getElem? (ns : List MNode) (idx : Nat) (o : Int) (j : Nat) :
    (bumpAt ns idx o)[j]? = (ns[j]?).map (fun s => if j = idx then bumpNode o s else s) :=
  mapIdx_getElem? _ ns j

/-- A statistics bump preserves the arena size. -/
theorem bumpAt_length (ns : List MNode) (idx : Nat) (o : Int) :
    (bumpAt ns idx o).length = ns.length := by
  unfold bumpAt
  rw [List.length_mapIdx]

/-- Lookup through the children reset at one index. -/
theorem clearChildrenAt_getElem? (ns : List MNode) (idx : Nat) (j : Nat) :
    (clearChildrenAt ns idx)[j]? =
      (ns[j]?).map (fun s => if j = idx then { s with children := [] } else s) :=
  mapIdx_getElem? _ ns j

/-- The children reset preserves the arena size. -/
theorem clearChildrenAt_length (ns : List MNode) (idx : Nat) :
    (clearChildrenAt ns idx).length = ns.length := by
  unfold clearChildrenAt
  rw [List.length_mapIdx]

/-- Unfolded reading of the well-formedness check: every stored parent index
is smaller than the index of its node. -/
theorem parentsDecreasing_spec (ns : List MNode) (h : parentsDecreasing ns = true) :
    ∀ (i : Nat) (s : MNode) (p : Nat), ns[i]? = some s → s.parent = some p → p < i := by
  intro i s p hs hp
  have hi : i < ns.length := by
    by_contra hcon
    rw [List.getElem?_eq_none (by omega)] at hs
    cases hs
  unfold parentsDecreasing at h
  rw [List.all_eq_true] at h
  have h2 := h i (List.mem_range.mpr hi)
  simp only [hs, hp] at h2
  exact of_decide_eq_true h2

/-- The parent chain only depends on the parent fields, so any
statistics-only transformation of the arena leaves it unchanged. -/
theorem ancestorChain_congr (ns ns' : List MNode)
    (hpar : ∀ j : Nat, (ns'[j]?).map MNode.parent = (ns[j]?).map MNode.parent) :
    ∀ (fuel : Nat) (x : Option Nat), ancestorChain ns' x fuel = ancestorChain ns x fuel := by
  intro fuel
  induction fuel with
  | zero => intro x; cases x <;> rfl
  | succ fuel ih =>
    intro x
    cases x with
    | none => rfl
    | some i =>
      simp only [ancestorChain]
      have h := hpar i
      cases hs : ns[i]? with
      | none =>
        cases hs' : ns'[i]? with
        | none => rfl
        | some s' => rw [hs, hs'] at h; cases h
      | some s =>
        cases hs' : ns'[i]? with
        | none => rw [hs, hs'] at h; cases h
        | some s' =>
          rw [hs, hs'] at h
          simp only [Option.map_some', Option.some.injEq] at h
          simp only [hs, hs']
          rw [h, ih s.parent]

/-- Every member of the chain from node i is at most i: the chain follows
strictly decreasing parent indices. -/
theorem ancestorChain_le (ns : List MNode)
    (hpar : ∀ (i : Nat) (s : MNode) (p : Nat), ns[i]? = some s → s.parent = some p → p < i) :
    ∀ (fuel : Nat) (i j : Nat), j ∈ ancestorChain ns (some i) fuel → j ≤ i := by
  intro fuel
  induction fuel with
  | zero => intro i j hj; cases hj
  | succ fuel ih =>
    intro i j hj
    simp only [ancestorChain] at hj
    rcases List.mem_cons.mp hj with rfl | hj2
    · exact Nat.le_refl _
    · cases hs : ns[i]? with
      | none => simp only [hs] at hj2; cases hj2
      | some s =>
        simp only [hs] at hj2
        cases hp : s.parent with
        | none =>
          rw [hp] at hj2
          simp only [ancestorChain] at hj2
          cases hj2
        | some p =>
          rw [hp] at hj2
          have hpi := hpar i s p hs hp
          have hle := ih p j hj2
          omega

/-- A statistics bump never changes a parent field. -/
theorem bumpAt_parent_pres (ns : List MNode) (i : Nat) (o : Int) :
    ∀ a : Nat, ((bumpAt ns i o)[a]?).map MNode.parent = (ns[a]?).map MNode.parent := by
  intro a
  rw [bumpAt_getElem?]
  cases hx : ns[a]? with
  | none => rfl
  | some t =>
    simp only [Option.map_some']
    by_cases ha : a = i <;> simp [ha, bumpNode]

/-- The backup walk bumps the statistics of exactly the nodes on the
ancestor chain of its start node and touches no other node; the fuel is never
exhausted because parent indices strictly decrease. -/
theorem backupWalk_spec (o : Int) :
    ∀ (fuel : Nat) (ns : List MNode) (i : Nat),
      i < fuel → i < ns.length →
      (∀ (a : Nat) (s : MNode) (p : Nat), ns[a]? = some s → s.parent = some p → p < a) →
      ∀ j : Nat, (backupWalk o ns (some i) fuel)[j]? =
        if j ∈ ancestorChain ns (some i) fuel then (ns[j]?).map (bumpNode o) else ns[j]? := by
  intro fuel
  induction fuel with
  | zero => intro ns i hif; omega
  | succ fuel ih =>
    intro ns i hif hilen hpar j
    obtain ⟨s, hs⟩ : ∃ s, ns[i]? = some s := ⟨ns.get ⟨i, hilen⟩, by
      rw [List.getElem?_eq_getElem hilen]; rfl⟩
    simp only [backupWalk, ancestorChain, hs]
    have hlen1 : (bumpAt ns i o).length = ns.length := bumpAt_length ns i o
    have hpp := bumpAt_parent_pres ns i o
    have hpar1 : ∀ (a : Nat) (s2 : MNode) (p : Nat),
        (bumpAt ns i o)[a]? = some s2 → s2.parent = some p → p < a := by
      intro a s2 p h1 h2
      have hq := hpp a
      rw [h1] at hq
      cases hx : ns[a]? with
      | none => rw [hx] at hq; cases hq
      | some t =>
        rw [hx] at hq
        simp only [Option.map_some', Option.some.injEq] at hq
        refine hpar a t p hx ?_
        rw [← hq]
        exact h2
    cases hp : s.parent with
    | none =>
      simp only [backupWalk, ancestorChain]
      rw [bumpAt_getElem?]
      by_cases hj : j = i
      · rw [if_pos (by simp [hj])]
        subst hj
        cases hx : ns[j]? with
        | none => rfl
        | some t => simp
      · rw [if_neg (by simp [hj])]
        cases hx : ns[j]? with
        | none => rfl
        | some t => simp [hj]
    | some p =>
      have hpi : p < i := hpar i s p hs hp
      have hih := ih (bumpAt ns i o) p (by omega) (by rw [hlen1]; omega) hpar1 j
      rw [hih]
      have hchain : ancestorChain (bumpAt ns i o) (some p) fuel
          = ancestorChain ns (some p) fuel := ancestorChain_congr ns (bumpAt ns i o) hpp fuel _
      rw [hchain]
      by_cases hjc : j ∈ ancestorChain ns (some p) fuel
      · have hjp : j ≤ p := ancestorChain_le ns hpar fuel p j hjc
        have hji : j ≠ i := by omega
        rw [if_pos hjc, if_pos (List.mem_cons_of_mem _ hjc), bumpAt_getElem?]
        cases hx : ns[j]? with
        | none => rfl
        | some t => simp [hji]
      · by_cases hji : j = i
        · rw [if_neg hjc, if_pos (by simp [hji]), bumpAt_getElem?]
          subst hji
          cases hx : ns[j]? with
          | none => rfl
          | some t => simp
        · rw [if_neg hjc, if_neg (by simp [hji, hjc]), bumpAt_getElem?]
          cases hx : ns[j]? with
          | none => rfl
          | some t => simp [hji]

/-- The children reset never changes a parent field. -/
theorem clearChildrenAt_parent_pres (ns : List MNode) (idx : Nat) :
    ∀ a : Nat, ((clearChildrenAt ns idx)[a]?).map MNode.parent = (ns[a]?).map MNode.parent := by
  intro a
  rw [clearChildrenAt_getElem?]
  cases hx : ns[a]? with
  | none => rfl
  | some t =>
    simp only [Option.map_some']
    by_cases ha : a = idx <;> simp [ha]

/-- The chain from an in-range node ends at a root: the node indexed by its
last element has no parent. -/
theorem ancestorChain_last (ns : List MNode)
    (hpar : ∀ (i : Nat) (s : MNode) (p : Nat), ns[i]? = some s → s.parent = some p → p < i) :
    ∀ (fuel : Nat) (i : Nat), i < fuel → i < ns.length →
      ∀ r, (ancestorChain ns (some i) fuel).getLast? = some r →
        ∃ s, ns[r]? = some s ∧ s.parent = none := by
  intro fuel
  induction fuel with
  | zero => intro i hif; omega
  | succ fuel ih =>
    intro i hif hilen r hr
    obtain ⟨s, hs⟩ : ∃ s, ns[i]? = some s := ⟨ns.get ⟨i, hilen⟩, by
      rw [List.getElem?_eq_getElem hilen]; rfl⟩
    simp only [ancestorChain, hs] at hr
    cases hp : s.parent with
    | none =>
      rw [hp] at hr
      simp only [ancestorChain, List.getLast?_singleton, Option.some.injEq] at hr
      subst hr
      exact ⟨s, hs, hp⟩
    | some p =>
      rw [hp] at hr
      have hpi := hpar i s p hs hp
      have hne : ancestorChain ns (some p) fuel ≠ [] := by
        obtain ⟨l, hl⟩ : ∃ l, fuel = l + 1 := ⟨fuel - 1, by omega⟩
        rw [hl]
        simp [ancestorChain]
      obtain ⟨y, ys, hys⟩ := List.exists_cons_of_ne_nil hne
      rw [hys, List.getLast?_cons_cons] at hr
      exact ih p (by omega) (by omega) r (by rw [hys]; exact hr)

/-- C8: for a well-formed arena (parent indices decrease, as in the
sequential engine where parents are created before children) and a playout
seed with terminal outcome o, MCTS._backup increments the visit count n by
exactly one on every node of the path from the seed to the root (the path
starts at the seed and ends at a parentless root node, both inclusive),
increments n_wins by exactly one on exactly those path nodes whose turn
equals -o, and changes the statistics of no node off that path (off-path
nodes other than the seed are entirely unchanged; the seed additionally has
its playout branch discarded). -/
theorem C8_backup_increments (ns : List MNode) (seed : Nat) (o : Int)
    (hseed : seed < ns.length) (hpar : parentsDecreasing ns = true) :
    (seedPath ns seed).head? = some seed ∧
    (∀ r, (seedPath ns seed).getLast? = some r →
      ∃ s, ns[r]? = some s ∧ s.parent = none) ∧
    (∀ (j : Nat) (s : MNode), ns[j]? = some s →
      ∃ s', (MCTS_backup ns seed o)[j]? = some s' ∧
        s'.turn = s.turn ∧ s'.parent = s.parent ∧
        s'.n = s.n + (if j ∈ seedPath ns seed then 1 else 0) ∧
        s'.nWins = s.nWins + (if j ∈ seedPath ns seed ∧ s.turn = -o then 1 else 0) ∧
        (j ≠ seed → s'.children = s.children)) := by
  have hparS := parentsDecreasing_spec ns hpar
  have hlen0 : (clearChildrenAt ns seed).length = ns.length := clearChildrenAt_length ns seed
  have hpp0 := clearChildrenAt_parent_pres ns seed
  have hsp : seed ∈ seedPath ns seed := by
    unfold seedPath
    obtain ⟨l, hl⟩ : ∃ l, ns.length = l + 1 := ⟨ns.length - 1, by omega⟩
    rw [hl]
    simp only [ancestorChain]
    exact List.mem_cons_self _ _
  refine ⟨?_, ?_, ?_⟩
  · unfold seedPath
    obtain ⟨l, hl⟩ : ∃ l, ns.length = l + 1 := ⟨ns.length - 1, by omega⟩
    rw [hl]
    simp [ancestorChain]
  · intro r hr
    exact ancestorChain_last ns hparS ns.length seed hseed hseed r hr
  · intro j s hs
    have hpar0 : ∀ (a : Nat) (s2 : MNode) (p : Nat),
        (clearChildrenAt ns seed)[a]? = some s2 → s2.parent = some p → p < a := by
      intro a s2 p h1 h2
      have hq := hpp0 a
      rw [h1] at hq
      cases hx : ns[a]? with
      | none => rw [hx] at hq; cases hq
      | some t =>
        rw [hx] at hq
        simp only [Option.map_some', Option.some.injEq] at hq
        refine hparS a t p hx ?_
        rw [← hq]
        exact h2
    have hspec := backupWalk_spec o ns.length (clearChildrenAt ns seed) seed hseed
      (by rw [hlen0]; omega) hpar0 j
    have hchain0 : ancestorChain (clearChildrenAt ns seed) (some seed) ns.length
        = seedPath ns seed := ancestorChain_congr ns _ hpp0 ns.length (some seed)
    unfold MCTS_backup
    rw [hspec, hchain0, clearChildrenAt_getElem?, hs]
    by_cases hj : j ∈ seedPath ns seed
    · rw [if_pos hj]
      refine ⟨_, rfl, ?_, ?_, ?_, ?_, ?_⟩
      · by_cases hjs : j = seed <;> simp [hjs, bumpNode]
      · by_cases hjs : j = seed <;> simp [hjs, bumpNode]
      · by_cases hjs : j = seed <;> by_cases ht : s.turn = -o <;>
          simp [hjs, ht, bumpNode, hj, hsp]
      · by_cases hjs : j = seed <;> by_cases ht : s.turn = -o <;>
          simp [hjs, ht, bumpNode, hj, hsp]
      · intro hjs
        simp [hjs, bumpNode]
    · rw [if_neg hj]
      have hjs : j ≠ seed := fun he => hj (he ▸ hsp)
      exact ⟨s, by simp [hjs], rfl, rfl, by simp [hj], by simp [hj], fun _ => rfl⟩

/-- Witness for C8 on the concrete three-node arena: backing up outcome 1
from seed 2 raises the mid-path node's n from 2 to 3 and, since its turn is
-1 = -outcome, its n_wins from 0 to 1. -/
theorem C8_backup_increments_witness :
    2 < backupSample.length ∧ parentsDecreasing backupSample = true ∧
    (∃ s', (MCTS_backup backupSample 2 1)[1]? = some s' ∧ s'.n = 3 ∧ s'.nWins = 1) := by
  have h := C8_backup_increments backupSample 2 1 (by decide) (by decide)
  obtain ⟨s', h1, h2, h3, h4, h5, h6⟩ :=
    h.2.2 1 ⟨false, 2, 0, -1, false, none, some 5, some 0, [2]⟩ (by decide)
  refine ⟨by decide, by decide, s', h1, ?_, ?_⟩
  · rw [h4]; decide
  · rw [h5]; decide
